import Mathlib

/-!
# Verification of the image-checker matching engine

A shallow embedding of `src/index.js` (a base64 image duplicate checker).
Strings are modelled as `List Char`; the flat-file store is a `List Char`
blob; the JavaScript regular-expression tests that the source builds from
escaped candidate strings are modelled by a small literal-alternation
pattern language together with its matching semantics.
-/

namespace ImageChecker

/-! ## Literal substring containment

The JS source performs its containment tests through `RegExp(...).test(data)`
on patterns whose metacharacters are escaped; the underlying semantic notion
is plain substring containment, defined here from first principles. -/

/-- Boolean test: `n` is a prefix of `h` (character lists). -/
def prefB : List Char → List Char → Bool
  | [], _ => true
  | _ :: _, [] => false
  | a :: as, b :: bs => a == b && prefB as bs

/-- Boolean test: `n` occurs contiguously somewhere inside `h`. -/
def substrB (n : List Char) : List Char → Bool
  | [] => n.isEmpty
  | c :: t => prefB n (c :: t) || substrB n t

/-- `n` occurs as a contiguous substring of `h`. -/
def SubstrOf (n h : List Char) : Prop := ∃ p q, p ++ n ++ q = h

theorem prefB_iff (n : List Char) : ∀ h : List Char, prefB n h = true ↔ ∃ t, n ++ t = h := by
  induction n with
  | nil => intro h; simp only [prefB, List.nil_append, true_iff]; exact ⟨h, rfl⟩
  | cons a as ih =>
    intro h
    cases h with
    | nil => simp [prefB]
    | cons b bs =>
      simp only [prefB, Bool.and_eq_true, beq_iff_eq, ih bs]
      constructor
      · rintro ⟨rfl, t, rfl⟩
        exact ⟨t, rfl⟩
      · rintro ⟨t, ht⟩
        rw [List.cons_append] at ht
        cases ht
        exact ⟨rfl, t, rfl⟩

theorem substrB_iff (n : List Char) : ∀ h : List Char, substrB n h = true ↔ SubstrOf n h := by
  intro h
  induction h with
  | nil =>
    simp only [substrB, List.isEmpty_iff, SubstrOf]
    constructor
    · rintro rfl; exact ⟨[], [], rfl⟩
    · rintro ⟨p, q, hpq⟩
      cases p <;> cases n <;> simp_all
  | cons c t ih =>
    simp only [substrB, Bool.or_eq_true, prefB_iff, ih]
    constructor
    · rintro (⟨u, hu⟩ | ⟨p, q, rfl⟩)
      · exact ⟨[], u, by simpa using hu⟩
      · exact ⟨c :: p, q, rfl⟩
    · rintro ⟨p, q, hpq⟩
      cases p with
      | nil => exact Or.inl ⟨q, by simpa using hpq⟩
      | cons x xs =>
        rw [List.cons_append, List.cons_append] at hpq
        cases hpq
        exact Or.inr ⟨xs, q, rfl⟩

instance (n h : List Char) : Decidable (SubstrOf n h) :=
  decidable_of_iff (substrB n h = true) (substrB_iff n h)

theorem substrOf_nil (h : List Char) : SubstrOf [] h := ⟨[], h, rfl⟩

theorem substrB_nil (h : List Char) : substrB [] h = true :=
  (substrB_iff [] h).2 (substrOf_nil h)

/-- The freshly appended entry is contained in the grown store blob. -/
theorem substrOf_append_self (s b t : List Char) : SubstrOf b (s ++ b ++ t) :=
  ⟨s, t, by simp⟩

/-! ## The JavaScript regular-expression tests of the source

`index.js` builds every containment test as `RegExp(pattern).test(data)`.
The patterns actually reachable are (a) an arbitrary candidate string with
every regex metacharacter escaped via
`.replace(/[.*+?^${}()|[\]\\]/g, '\\$&')` (lines 58 and 77), and (b) the
fixed configuration pattern `jpg|jpeg|png` (line 21).  Both fall inside the
fragment "alternation of literal sequences", whose unanchored `test`
semantics is: some alternative occurs as a contiguous substring of the
input.  `parseAlt` recognises exactly this fragment (escaped metacharacters
and unescaped `|` separators) and returns `none` on any pattern outside it,
so `jsRegexTest` is a partial model of `RegExp(...).test` that is total on
every pattern the program constructs. -/

/-- The character class escaped by the source's replace call:
`[.*+?^${}()|[\]\\]` (lines 58 and 77 of `index.js`). -/
def isMeta (c : Char) : Bool :=
  c = '.' || c = '*' || c = '+' || c = '?' || c = '^' || c = '$' ||
  c = '{' || c = '}' || c = '(' || c = ')' || c = '|' || c = '[' ||
  c = ']' || c = '\\'

/-- `s.replace(/[.*+?^${}()|[\]\\]/g, '\\$&')`: prepend a backslash to each
regex metacharacter, leaving other characters untouched. -/
def escapeRegExp (s : List Char) : List Char :=
  s.flatMap fun c => if isMeta c then ['\\', c] else [c]

/-- Prepend a character onto the first alternative of an alternation. -/
def consHead (c : Char) : List (List Char) → List (List Char)
  | [] => [[c]]
  | a :: as => (c :: a) :: as

/-- Parse a regex pattern that is an alternation of literal sequences:
`\m` (for metacharacter `m`) is a literal, `|` separates alternatives, any
other non-metacharacter is a literal; any other construct yields `none`. -/
def parseAlt : List Char → Option (List (List Char))
  | [] => some [[]]
  | c :: rest =>
    if c = '\\' then
      match rest with
      | [] => none
      | d :: rest' => if isMeta d then (parseAlt rest').map (consHead d) else none
    else if c = '|' then (parseAlt rest).map (List.cons [])
    else if isMeta c then none
    else (parseAlt rest).map (consHead c)

/-- `RegExp(pattern).test(data)` for alternation-of-literals patterns: true
iff some alternative is a contiguous substring of `data`; `none` models a
pattern outside the fragment (never produced by the program). -/
def jsRegexTest (pattern data : List Char) : Option Bool :=
  (parseAlt pattern).map fun alts => alts.any fun a => substrB a data

/-- Escaping a string always yields a pattern denoting that single literal
alternative: the escaped metacharacters (in particular `+`) are parsed as
plain characters, never as pattern syntax. -/
theorem escapeRegExp_cons (c : Char) (cs : List Char) :
    escapeRegExp (c :: cs) = (if isMeta c then ['\\', c] else [c]) ++ escapeRegExp cs := by
  simp [escapeRegExp]

theorem parseAlt_escape (s : List Char) : parseAlt (escapeRegExp s) = some [s] := by
  induction s with
  | nil => rfl
  | cons c cs ih =>
    rw [escapeRegExp_cons]
    by_cases hc : isMeta c = true
    · rw [if_pos hc]
      show parseAlt ('\\' :: c :: escapeRegExp cs) = some [c :: cs]
      rw [parseAlt.eq_def]
      simp [hc, ih, consHead]
    · have hslash : c ≠ '\\' := by rintro rfl; simp [isMeta] at hc
      have hbar : c ≠ '|' := by rintro rfl; simp [isMeta] at hc
      rw [if_neg hc]
      show parseAlt (c :: escapeRegExp cs) = some [c :: cs]
      rw [parseAlt.eq_def]
      simp [hslash, hbar, hc, ih, consHead]

/-- The full-string containment test on an escaped candidate evaluates to
literal substring containment. -/
theorem jsRegexTest_escape (s data : List Char) :
    jsRegexTest (escapeRegExp s) data = some (substrB s data) := by
  simp [jsRegexTest, parseAlt_escape]

/-! ## The Chunker

Line 47 of `index.js`: `this.chunks = this.base64.match(RegExp(`.{1,N}`, "g"))`
with `N = config.partialChunks = 120`.  On a nonempty string without line
terminators (base64 output never contains any) the global greedy match
yields the consecutive `N`-character slices, the last one possibly shorter;
on the empty string, `String.match` returns `null`, modelled as `none`. -/

/-- Consecutive `n`-character slices of `s`; `fuel` bounds the recursion and
is irrelevant as soon as `s.length ≤ fuel` (see `chunksFuel_congr`). -/
def chunksFuel (n : Nat) : Nat → List Char → List (List Char)
  | _, [] => []
  | 0, _ :: _ => []
  | fuel + 1, c :: rest => ((c :: rest).take n) :: chunksFuel n fuel ((c :: rest).drop n)

/-- The ordered chunk sequence of the global match `.{1,n}` on `s`. -/
def chunkList (n : Nat) (s : List Char) : List (List Char) :=
  chunksFuel n s.length s

/-- `s.match(RegExp(".{1,n}", "g"))`: `null` (= `none`) on the empty string,
otherwise the chunk sequence. -/
def jsMatchChunks (n : Nat) (s : List Char) : Option (List (List Char)) :=
  if s = [] then none else some (chunkList n s)

/-- Characters of the base64 alphabet produced by `Buffer.toString('base64')`. -/
def isB64 (c : Char) : Bool :=
  c.isAlphanum || c = '+' || c = '/' || c = '='

/-- The `ImageFile` class (lines 41-79): a resolved input file, its base64
encoding, and the chunk sequence (`null`, i.e. `none`, for a zero-byte file). -/
structure ImageFile where
  filePath : List Char
  base64 : List Char
  chunks : Option (List (List Char))
deriving DecidableEq

/-- The `ImageFile` constructor (lines 42-48), taking the base64 encoding of
the file bytes as input (the Encoder is the external `Buffer` collaborator). -/
def mkImageFile (filePath base64 : List Char) : ImageFile :=
  { filePath := filePath, base64 := base64, chunks := jsMatchChunks 120 base64 }

/-- `existsInData` (lines 76-78): test the escaped full base64 against the
store text through the regex engine. -/
def ImageFile.existsInData (img : ImageFile) (data : List Char) : Option Bool :=
  jsRegexTest (escapeRegExp img.base64) data

/-- The `.every` loop body of `chunksExistInData` (lines 55-68): walk the
chunks left to right, stop at the first chunk whose escaped pattern matches. -/
def chunksCheckLoop (data : List Char) : List (List Char) → Option Bool
  | [] => some false
  | c :: rest =>
    match jsRegexTest (escapeRegExp c) data with
    | none => none
    | some true => some true
    | some false => chunksCheckLoop data rest

/-- `chunksExistInData` (lines 55-69); reading `.every` off a `null` chunk
list throws a `TypeError`, modelled as `none`. -/
def ImageFile.chunksExistInData (img : ImageFile) (data : List Char) : Option Bool :=
  match img.chunks with
  | none => none
  | some cs => chunksCheckLoop data cs

theorem existsInData_eval (img : ImageFile) (data : List Char) :
    img.existsInData data = some (substrB img.base64 data) := by
  rw [ImageFile.existsInData, jsRegexTest_escape]

theorem chunksCheckLoop_eval (data : List Char) :
    ∀ cs : List (List Char), chunksCheckLoop data cs = some (cs.any fun c => substrB c data) := by
  intro cs
  induction cs with
  | nil => rfl
  | cons c rest ih =>
    have hstep : chunksCheckLoop data (c :: rest) =
        match jsRegexTest (escapeRegExp c) data with
        | none => none
        | some true => some true
        | some false => chunksCheckLoop data rest := rfl
    rw [hstep, jsRegexTest_escape]
    cases h : substrB c data with
    | true => simp [h]
    | false => simp [h, ih]

/-! ### Shape of the chunk sequence -/

theorem chunksFuel_nil (n fuel : Nat) : chunksFuel n fuel [] = [] := by
  cases fuel <;> rfl

theorem chunksFuel_cons (n fuel : Nat) (c : Char) (rest : List Char) :
    chunksFuel n (fuel + 1) (c :: rest)
      = ((c :: rest).take n) :: chunksFuel n fuel ((c :: rest).drop n) := rfl

theorem chunksFuel_congr (n : Nat) (hn : 0 < n) :
    ∀ fuel1 fuel2 s, s.length ≤ fuel1 → s.length ≤ fuel2 →
      chunksFuel n fuel1 s = chunksFuel n fuel2 s := by
  intro fuel1
  induction fuel1 with
  | zero =>
    intro fuel2 s h1 _
    have : s = [] := List.eq_nil_of_length_eq_zero (Nat.le_zero.1 h1)
    subst this
    simp [chunksFuel_nil]
  | succ f1 ih =>
    intro fuel2 s h1 h2
    cases s with
    | nil => simp [chunksFuel_nil]
    | cons c rest =>
      cases fuel2 with
      | zero => simp at h2
      | succ f2 =>
        rw [chunksFuel_cons, chunksFuel_cons]
        congr 1
        apply ih
        · simp only [List.length_drop, List.length_cons] at *
          omega
        · simp only [List.length_drop, List.length_cons] at *
          omega

theorem chunkList_cons (n : Nat) (hn : 0 < n) (c : Char) (rest : List Char) :
    chunkList n (c :: rest)
      = ((c :: rest).take n) :: chunkList n ((c :: rest).drop n) := by
  rw [chunkList, chunkList, show (c :: rest).length = rest.length + 1 from rfl, chunksFuel_cons]
  congr 1
  apply chunksFuel_congr n hn
  · simp only [List.length_drop, List.length_cons]
    omega
  · exact le_refl _

theorem chunksFuel_ne_nil (n fuel : Nat) (s : List Char)
    (h : s.length ≤ fuel) (hs : s ≠ []) : chunksFuel n fuel s ≠ [] := by
  cases s with
  | nil => exact absurd rfl hs
  | cons c rest =>
    cases fuel with
    | zero => simp at h
    | succ f => rw [chunksFuel_cons]; exact List.cons_ne_nil _ _

theorem chunksFuel_length (n : Nat) (hn : 0 < n) :
    ∀ fuel s, s.length ≤ fuel → s ≠ [] →
      (chunksFuel n fuel s).length = (s.length - 1) / n + 1 := by
  intro fuel
  induction fuel with
  | zero =>
    intro s h1 hs
    have : s = [] := List.eq_nil_of_length_eq_zero (Nat.le_zero.1 h1)
    exact absurd this hs
  | succ f ih =>
    intro s h1 hs
    cases s with
    | nil => exact absurd rfl hs
    | cons c rest =>
      rw [chunksFuel_cons, List.length_cons]
      by_cases hle : (c :: rest).length ≤ n
      · have hdrop : (c :: rest).drop n = [] := List.drop_eq_nil_of_le hle
        rw [hdrop, chunksFuel_nil]
        have hlt : rest.length < n := by
          simp only [List.length_cons] at hle
          omega
        simp [Nat.div_eq_of_lt hlt]
      · have hlen : ((c :: rest).drop n).length = (c :: rest).length - n := by
          simp
        have hdne : (c :: rest).drop n ≠ [] := by
          intro hcon
          rw [hcon] at hlen
          simp only [List.length_nil] at hlen
          simp only [List.length_cons] at *
          omega
        have hfuel : ((c :: rest).drop n).length ≤ f := by
          rw [hlen]
          simp only [List.length_cons] at *
          omega
        rw [ih _ hfuel hdne, hlen]
        have hL : n < (c :: rest).length := Nat.lt_of_not_le hle
        rw [show (c :: rest).length - n - 1 = ((c :: rest).length - 1) - n by omega]
        have : (c :: rest).length - 1 = (((c :: rest).length - 1) - n) + n := by
          simp only [List.length_cons] at *
          omega
        conv_rhs => rw [this, Nat.add_div_right _ hn]

theorem chunksFuel_middle (n : Nat) (hn : 0 < n) :
    ∀ fuel s, s.length ≤ fuel →
      ∀ c ∈ (chunksFuel n fuel s).dropLast, c.length = n := by
  intro fuel
  induction fuel with
  | zero =>
    intro s h1 c hc
    have : s = [] := List.eq_nil_of_length_eq_zero (Nat.le_zero.1 h1)
    subst this
    simp [chunksFuel_nil] at hc
  | succ f ih =>
    intro s h1 c hc
    cases s with
    | nil => simp [chunksFuel_nil] at hc
    | cons a rest =>
      rw [chunksFuel_cons] at hc
      by_cases hle : (a :: rest).length ≤ n
      · rw [List.drop_eq_nil_of_le hle, chunksFuel_nil] at hc
        simp at hc
      · have hlen : ((a :: rest).drop n).length = (a :: rest).length - n := by simp
        have hdne : (a :: rest).drop n ≠ [] := by
          intro hcon
          rw [hcon] at hlen
          simp only [List.length_nil] at hlen
          simp only [List.length_cons] at *
          omega
        have hfuel : ((a :: rest).drop n).length ≤ f := by
          rw [hlen]
          simp only [List.length_cons] at *
          omega
        have htail := chunksFuel_ne_nil n f _ hfuel hdne
        rw [List.dropLast_cons_of_ne_nil htail] at hc
        cases hc with
        | head =>
          rw [List.length_take]
          exact Nat.min_eq_left (Nat.le_of_lt (Nat.lt_of_not_le hle))
        | tail _ hmem => exact ih _ hfuel c hmem

theorem chunksFuel_last (n : Nat) (hn : 0 < n) :
    ∀ fuel s, s.length ≤ fuel → s ≠ [] →
      ∃ lc, (chunksFuel n fuel s).getLast? = some lc ∧
        lc.length = s.length - n * ((chunksFuel n fuel s).length - 1) := by
  intro fuel
  induction fuel with
  | zero =>
    intro s h1 hs
    have : s = [] := List.eq_nil_of_length_eq_zero (Nat.le_zero.1 h1)
    exact absurd this hs
  | succ f ih =>
    intro s h1 hs
    cases s with
    | nil => exact absurd rfl hs
    | cons a rest =>
      rw [chunksFuel_cons]
      by_cases hle : (a :: rest).length ≤ n
      · rw [List.drop_eq_nil_of_le hle, chunksFuel_nil]
        refine ⟨(a :: rest).take n, rfl, ?_⟩
        rw [List.take_of_length_le hle]
        simp
      · have hlen : ((a :: rest).drop n).length = (a :: rest).length - n := by simp
        have hdne : (a :: rest).drop n ≠ [] := by
          intro hcon
          rw [hcon] at hlen
          simp only [List.length_nil] at hlen
          simp only [List.length_cons] at *
          omega
        have hfuel : ((a :: rest).drop n).length ≤ f := by
          rw [hlen]
          simp only [List.length_cons] at *
          omega
        obtain ⟨lc, hlast, hlc⟩ := ih _ hfuel hdne
        have htail := chunksFuel_ne_nil n f _ hfuel hdne
        refine ⟨lc, ?_, ?_⟩
        · cases hcl : chunksFuel n f ((a :: rest).drop n) with
          | nil => exact absurd hcl htail
          | cons x xs =>
            rw [hcl] at hlast
            rw [List.getLast?_cons_cons]
            exact hlast
        · obtain ⟨k, hk⟩ := Nat.exists_eq_succ_of_ne_zero
            (fun hz => htail (List.eq_nil_of_length_eq_zero hz))
          rw [hlen] at hlc
          rw [hk, Nat.succ_sub_one] at hlc
          simp only [List.length_cons, hk] at *
          rw [show Nat.succ k + 1 - 1 = k + 1 by omega, Nat.mul_succ]
          generalize hm : n * k = m at hlc ⊢
          omega

theorem ceil_div_form (n L : Nat) (hn : 0 < n) (hL : 0 < L) :
    (L + n - 1) / n = (L - 1) / n + 1 := by
  rw [show L + n - 1 = (L - 1) + n by omega, Nat.add_div_right _ hn]

/-! ## Commands

`flag` (lines 123-137) and `check` (lines 143-162) both run over the files
resolved by `preload`, with the store text `data` read once up front
(line 114) and never refreshed during the batch.  The command state carries
the backing `store.db` content, the `stats.tally` counter and the log lines
written so far. -/

/-- Mutable state of one command invocation: `store.db` content, the tally,
and the `logs.log` lines written (each already prefixed with its level). -/
structure CmdState where
  store : List Char
  tally : Nat
  logs : List (List Char)
deriving DecidableEq

/-- Result of running (part of) a command: `ok`, or `crash` when a JS
exception (e.g. the `TypeError` of `null.every`) escapes to the top-level
`catch` of line 268; the carried state is the state at that point. -/
inductive RunOut where
  | ok (st : CmdState)
  | crash (st : CmdState)
deriving DecidableEq

/-- The state carried by a run result. -/
def RunOut.state : RunOut → CmdState
  | .ok st => st
  | .crash st => st

/-- Log line of `log(..., 0)` at line 132. -/
def msgAlreadyExists (path : List Char) : List Char :=
  ("INFO File already exists in data store: ").data ++ path

/-- Log line of `log(..., 0)` at line 192. -/
def msgFlagged (path : List Char) : List Char :=
  ("INFO File flagged: ").data ++ path

/-- Log line of `log(..., 1)` at line 186; the template interpolates the
`ImageFile` object itself, which stringifies as `[object Object]`. -/
def msgAlreadyAdded : List Char :=
  ("WARNING File has already been added to data store: [object Object]").data

/-- Log line of `log(..., 0)` at line 154. -/
def msgFound (path : List Char) : List Char :=
  ("INFO File found in data store: ").data ++ path

/-- Log line of `log(..., 0)` at line 157. -/
def msgNotFound (path : List Char) : List Char :=
  ("INFO Did not find file in data store: ").data ++ path

/-- Outcome of `store(file, data)` (lines 184-198): whether the entry was
saved, and the state afterwards. -/
inductive StoreOut where
  | crash (st : CmdState)
  | done (saved : Bool) (st : CmdState)
deriving DecidableEq

/-- `store(file, data)` (lines 184-198): re-check existence against the same
stale `data` snapshot, and append `base64 + '\n'` to `store.db` if absent. -/
def store (file : ImageFile) (data : List Char) (st : CmdState) : StoreOut :=
  match file.existsInData data with
  | none => .crash st
  | some true => .done false { st with logs := st.logs ++ [msgAlreadyAdded] }
  | some false =>
      .done true { st with store := st.store ++ file.base64 ++ ['\n'],
                           logs := st.logs ++ [msgFlagged file.filePath] }

/-- One iteration of the `flag` loop (lines 126-134). -/
def flagStep (data : List Char) (file : ImageFile) (st : CmdState) : RunOut :=
  match file.existsInData data with
  | none => .crash st
  | some true => .ok { st with logs := st.logs ++ [msgAlreadyExists file.filePath] }
  | some false =>
      match store file data st with
      | .crash st' => .crash st'
      | .done saved st' => .ok (if saved then { st' with tally := st'.tally + 1 } else st')

/-- The `files.forEach` loop of `flag` (lines 126-134); `data` is the store
snapshot read once by `preload` and never reloaded mid-batch. -/
def flagLoop (data : List Char) : List ImageFile → CmdState → RunOut
  | [], st => .ok st
  | f :: rest, st =>
      match flagStep data f st with
      | .ok st' => flagLoop data rest st'
      | .crash st' => .crash st'

/-- One iteration of the `check` loop (lines 146-159): with `--partial` the
chunk test runs first, then `existsInData(data) || chunkExists` decides
found/not found.  The store content is never written. -/
def checkStep (chunkMode : Bool) (data : List Char) (file : ImageFile) (st : CmdState) : RunOut :=
  match (if chunkMode then file.chunksExistInData data else some false) with
  | none => .crash st
  | some chunkExists =>
      match file.existsInData data with
      | none => .crash st
      | some e =>
          if e || chunkExists then
            .ok { st with tally := st.tally + 1, logs := st.logs ++ [msgFound file.filePath] }
          else
            .ok { st with logs := st.logs ++ [msgNotFound file.filePath] }

/-- The `files.forEach` loop of `check` (lines 146-159). -/
def checkLoop (chunkMode : Bool) (data : List Char) : List ImageFile → CmdState → RunOut
  | [], st => .ok st
  | f :: rest, st =>
      match checkStep chunkMode data f st with
      | .ok st' => checkLoop chunkMode data rest st'
      | .crash st' => .crash st'

/-! ## File resolution -/

/-- `config.imageExtensions` (line 12). -/
def imageExtensions : List Char := ("jpg|jpeg|png").data

/-- `helpers.checkFileExtension` (line 21):
`RegExp(config.imageExtensions).test(string)` — an unanchored containment
test of the alternation `jpg|jpeg|png`, not a suffix test. -/
def checkFileExtension (s : List Char) : Option Bool :=
  jsRegexTest imageExtensions s

/-- `validate` (lines 170-176). -/
def validate (file : List Char) : Option Bool :=
  checkFileExtension file

/-- The path built for a directory entry (line 97). -/
def dirJoin (dir item : List Char) : List Char := dir ++ '/' :: item

/-- The directory branch of `preload` (lines 91-100): walk the listed items
(given with the base64 of their content) and push an `ImageFile` for each
path passing `validate`. -/
def preloadDir (dir : List Char) (items : List (List Char × List Char)) : List ImageFile :=
  items.foldl
    (fun files it =>
      match validate (dirJoin dir it.1) with
      | some true => files ++ [mkImageFile (dirJoin dir it.1) it.2]
      | _ => files)
    []

/-! ## The store as a sequence of lines

`store.db` is created empty (line 32) and only ever grown by appending
`entry + '\n'` (line 191), so its reachable contents are concatenations of
newline-terminated newline-free entries.  `lines` splits a blob into its
lines (a trailing fragment after the last newline counts, a trailing empty
fragment does not), and `StoreWF` captures the reachable shapes. -/

/-- Split a text blob into lines at `'\n'`. -/
def lines : List Char → List (List Char)
  | [] => []
  | c :: rest =>
    if c = '\n' then [] :: lines rest
    else
      match lines rest with
      | [] => [[c]]
      | l :: ls => (c :: l) :: ls

/-- Store contents reachable by the program: the empty file, grown by
newline-terminated newline-free entries. -/
inductive StoreWF : List Char → Prop
  | nil : StoreWF []
  | snoc (s b : List Char) : StoreWF s → '\n' ∉ b → StoreWF (s ++ b ++ ['\n'])

theorem lines_line_append (b : List Char) (hb : '\n' ∉ b) (t : List Char) :
    lines (b ++ '\n' :: t) = b :: lines t := by
  induction b with
  | nil =>
    show lines ('\n' :: t) = [] :: lines t
    rw [lines.eq_def]
    simp
  | cons c cs ih =>
    have hc : c ≠ '\n' := fun h => hb (h ▸ List.mem_cons_self c cs)
    have ih' := ih (fun h => hb (List.mem_cons_of_mem c h))
    show lines (c :: (cs ++ '\n' :: t)) = (c :: cs) :: lines t
    rw [lines.eq_def]
    simp only [hc, if_false, ih']

theorem storeWF_lines_append {s : List Char} (h : StoreWF s) :
    ∀ u, lines (s ++ u) = lines s ++ lines u := by
  induction h with
  | nil => intro u; rw [List.nil_append]; rfl
  | snoc s b hwf hnb ih =>
    intro u
    have h1 : (s ++ b ++ ['\n']) ++ u = s ++ (b ++ '\n' :: u) := by simp
    have h2 : s ++ b ++ ['\n'] = s ++ (b ++ '\n' :: ([] : List Char)) := by simp
    rw [h1, ih, lines_line_append b hnb, h2, ih, lines_line_append b hnb]
    simp [lines]

theorem storeWF_lines_snoc {s : List Char} (h : StoreWF s) (b : List Char) (hb : '\n' ∉ b) :
    lines (s ++ b ++ ['\n']) = lines s ++ [b] := by
  have h2 : s ++ b ++ ['\n'] = s ++ (b ++ '\n' :: ([] : List Char)) := by simp
  rw [h2, storeWF_lines_append h, lines_line_append b hb]
  simp [lines]

theorem substrOf_cons (b : List Char) (c : Char) (t : List Char)
    (h : SubstrOf b t) : SubstrOf b (c :: t) := by
  obtain ⟨p, q, rfl⟩ := h
  exact ⟨c :: p, q, rfl⟩

theorem lines_head_pref (s : List Char) :
    ∀ l ls, lines s = l :: ls → ∃ t, l ++ t = s := by
  induction s with
  | nil => intro l ls h; simp [lines] at h
  | cons c rest ih =>
    intro l ls h
    rw [lines.eq_def] at h
    by_cases hc : c = '\n'
    · simp only [hc, if_pos rfl] at h
      cases h
      exact ⟨'\n' :: rest, by simp [hc]⟩
    · simp only [hc, if_false] at h
      cases hm : lines rest with
      | nil =>
        rw [hm] at h
        have h' : [[c]] = l :: ls := h
        cases h'
        exact ⟨rest, rfl⟩
      | cons l2 ls2 =>
        rw [hm] at h
        have h' : (c :: l2) :: ls2 = l :: ls := h
        injection h' with h1 h2
        obtain ⟨t, ht⟩ := ih l2 ls2 hm
        exact ⟨t, by rw [← h1, List.cons_append, ht]⟩

theorem mem_lines_substrOf (s : List Char) :
    ∀ b, b ∈ lines s → SubstrOf b s := by
  induction s with
  | nil => intro b hb; simp [lines] at hb
  | cons c rest ih =>
    intro b hb
    rw [lines.eq_def] at hb
    by_cases hc : c = '\n'
    · simp only [hc, if_pos rfl] at hb
      cases hb with
      | head => exact substrOf_nil _
      | tail _ hmem => exact substrOf_cons _ _ _ (ih b hmem)
    · simp only [hc, if_false] at hb
      cases hm : lines rest with
      | nil =>
        rw [hm] at hb
        have hb' : b ∈ [[c]] := hb
        rw [List.mem_singleton] at hb'
        subst hb'
        exact ⟨[], rest, rfl⟩
      | cons l2 ls2 =>
        rw [hm] at hb
        have hb' : b ∈ (c :: l2) :: ls2 := hb
        cases hb' with
        | head =>
          obtain ⟨t, ht⟩ := lines_head_pref rest l2 ls2 hm
          exact ⟨[], t, by simp [ht]⟩
        | tail _ hmem =>
          exact substrOf_cons _ _ _ (ih b (hm ▸ List.mem_cons_of_mem l2 hmem))

/-! ## Duplicate suppression across a flag batch

The duplicate check of `flag` (line 127) and of `store` (line 185) both run
against the stale pre-batch snapshot `data`, never against the store content
grown by earlier appends of the same batch. -/

theorem flagLoop_nodup_aux :
    ∀ (files : List ImageFile) (data : List Char) (st st' : CmdState),
      StoreWF st.store →
      (lines st.store).Nodup →
      (∀ f ∈ files, '\n' ∉ f.base64) →
      (files.map ImageFile.base64).Nodup →
      (∀ l ∈ lines st.store, SubstrOf l data ∨ l ∉ files.map ImageFile.base64) →
      flagLoop data files st = RunOut.ok st' →
      (lines st'.store).Nodup ∧ StoreWF st'.store := by
  intro files
  induction files with
  | nil =>
    intro data st st' hwf hnd _ _ _ hrun
    cases hrun
    exact ⟨hnd, hwf⟩
  | cons f rest ih =>
    intro data st st' hwf hnd hnb hmapnd hinv hrun
    have hbne : '\n' ∉ f.base64 := hnb f (List.mem_cons_self f rest)
    have hnbrest : ∀ g ∈ rest, '\n' ∉ g.base64 :=
      fun g hg => hnb g (List.mem_cons_of_mem f hg)
    have hmapnd' : (rest.map ImageFile.base64).Nodup := by
      rw [List.map_cons] at hmapnd
      exact (List.nodup_cons.1 hmapnd).2
    have hfnotin : f.base64 ∉ rest.map ImageFile.base64 := by
      rw [List.map_cons] at hmapnd
      exact (List.nodup_cons.1 hmapnd).1
    have hloop : flagLoop data (f :: rest) st =
        match flagStep data f st with
        | .ok st1 => flagLoop data rest st1
        | .crash st1 => .crash st1 := rfl
    rw [hloop] at hrun
    cases hsub : substrB f.base64 data with
    | true =>
      have h1 : f.existsInData data = some true := by rw [existsInData_eval, hsub]
      have hstep : flagStep data f st =
          .ok { st with logs := st.logs ++ [msgAlreadyExists f.filePath] } := by
        rw [flagStep.eq_def, h1]
      rw [hstep] at hrun
      have hrun' : flagLoop data rest
          { st with logs := st.logs ++ [msgAlreadyExists f.filePath] } = RunOut.ok st' := hrun
      refine ih data { st with logs := st.logs ++ [msgAlreadyExists f.filePath] } st'
        hwf hnd hnbrest hmapnd' ?_ hrun'
      intro l hl
      rcases hinv l hl with h | h
      · exact Or.inl h
      · exact Or.inr fun hm => h (by rw [List.map_cons]; exact List.mem_cons_of_mem _ hm)
    | false =>
      have h1 : f.existsInData data = some false := by rw [existsInData_eval, hsub]
      have hstep : flagStep data f st =
          .ok { store := st.store ++ f.base64 ++ ['\n'], tally := st.tally + 1,
                logs := st.logs ++ [msgFlagged f.filePath] } := by
        rw [flagStep.eq_def, h1, store.eq_def, h1]
        rfl
      rw [hstep] at hrun
      have hrun' : flagLoop data rest
          { store := st.store ++ f.base64 ++ ['\n'], tally := st.tally + 1,
            logs := st.logs ++ [msgFlagged f.filePath] } = RunOut.ok st' := hrun
      have hbnotin : f.base64 ∉ lines st.store := by
        intro hmem
        rcases hinv _ hmem with h | h
        · have hT := (substrB_iff f.base64 data).2 h
          rw [hsub] at hT
          exact Bool.noConfusion hT
        · exact h (by rw [List.map_cons]; exact List.mem_cons_self _ _)
      have hlines : lines (st.store ++ f.base64 ++ ['\n']) = lines st.store ++ [f.base64] :=
        storeWF_lines_snoc hwf _ hbne
      have hnd1 : (lines (st.store ++ f.base64 ++ ['\n'])).Nodup := by
        rw [hlines, List.nodup_append]
        refine ⟨hnd, List.nodup_singleton _, ?_⟩
        intro a ha hb
        rw [List.mem_singleton] at hb
        subst hb
        exact hbnotin ha
      have hwf1 : StoreWF (st.store ++ f.base64 ++ ['\n']) := StoreWF.snoc _ _ hwf hbne
      have hinv1 : ∀ l ∈ lines (st.store ++ f.base64 ++ ['\n']),
          SubstrOf l data ∨ l ∉ rest.map ImageFile.base64 := by
        rw [hlines]
        intro l hl
        rcases List.mem_append.1 hl with hl | hl
        · rcases hinv l hl with h | h
          · exact Or.inl h
          · exact Or.inr fun hm => h (by rw [List.map_cons]; exact List.mem_cons_of_mem _ hm)
        · rw [List.mem_singleton] at hl
          subst hl
          exact Or.inr hfnotin
      exact ih data _ st' hwf1 hnd1 hnbrest hmapnd' hinv1 hrun'

/-! ## Process termination

Every termination site of `index.js` either calls the shared `exit` routine
(lines 227-232), which ends with `process.exit(1)`, or is the separate
`process.exit(1)` at line 262 inside `help()`.  `Outcome.viaExitRoutine`
records which of the two call sites ended the process. -/

/-- The process exit status together with whether it was produced by the
shared `exit` routine (as opposed to `help()`'s own `process.exit(1)`). -/
structure Outcome where
  exitCode : Nat
  viaExitRoutine : Bool
deriving DecidableEq

/-- The `exit` routine (lines 227-232): logs its message and level, then
always `process.exit(1)` — the message and level never influence the exit
status. -/
def exitRoutine (_message : List Char) (_level : Nat) : Outcome :=
  { exitCode := 1, viaExitRoutine := true }

/-- The `process.exit(1)` of `help()` at line 262, which does not go through
the `exit` routine. -/
def helpExit : Outcome := { exitCode := 1, viaExitRoutine := false }

/-- Exit message of `flag` (line 136). -/
def flagDoneMsg (tally total : Nat) : List Char :=
  ("Flag complete. Added ").data ++ (Nat.repr tally).data ++ ("/").data ++
    (Nat.repr total).data ++ (" file(s).").data

/-- Exit message of `check` (line 161). -/
def checkDoneMsg (tally total : Nat) : List Char :=
  ("Check complete. Found ").data ++ (Nat.repr tally).data ++ ("/").data ++
    (Nat.repr total).data ++ (" file(s) matching in data store.").data

/-- The terminating control-flow paths of `index.js`: missing command
(line 25), `--help` (line 28), `preload` finding no accepted files
(line 107), a completed or crashed `flag`/`check` run (lines 136/161 and the
top-level `catch` of lines 268-270), an unknown command (line 270), and a
failed store write (line 195). -/
inductive ProgramPath where
  | missingCommand
  | helpRequested
  | noAcceptedFiles
  | flagRun (files : List ImageFile) (storeText : List Char)
  | checkRun (chunkMode : Bool) (files : List ImageFile) (storeText : List Char)
  | unknownCommand (cmd : List Char)
  | storeWriteFailed (path : List Char)

/-- The outcome of each terminating path. -/
def runPath : ProgramPath → Outcome
  | .missingCommand =>
      exitRoutine (("Command missing. Use --help to view current commands.").data) 2
  | .helpRequested => helpExit
  | .noAcceptedFiles => exitRoutine (("No files with accepted extensions found").data) 1
  | .flagRun files storeText =>
      match flagLoop storeText files { store := storeText, tally := 0, logs := [] } with
      | .ok st => exitRoutine (flagDoneMsg st.tally files.length) 0
      | .crash _ => exitRoutine (("Command not found: flag").data) 2
  | .checkRun chunkMode files storeText =>
      match checkLoop chunkMode storeText files { store := storeText, tally := 0, logs := [] } with
      | .ok st => exitRoutine (checkDoneMsg st.tally files.length) 0
      | .crash _ => exitRoutine (("Command not found: check").data) 2
  | .unknownCommand cmd => exitRoutine (("Command not found: ").data ++ cmd) 2
  | .storeWriteFailed path => exitRoutine (("Error storing file: ").data ++ path) 2

/-! ## Evaluation helpers -/

theorem mkImageFile_base64 (p b : List Char) : (mkImageFile p b).base64 = b := rfl

theorem mkImageFile_filePath (p b : List Char) : (mkImageFile p b).filePath = p := rfl

theorem mkImageFile_chunks (p b : List Char) :
    (mkImageFile p b).chunks = jsMatchChunks 120 b := rfl

/-- A single-file flag batch, fully evaluated. -/
theorem flagLoop_singleton (data : List Char) (img : ImageFile) (st : CmdState) :
    flagLoop data [img] st =
      if substrB img.base64 data then
        RunOut.ok { st with logs := st.logs ++ [msgAlreadyExists img.filePath] }
      else
        RunOut.ok { store := st.store ++ img.base64 ++ ['\n'], tally := st.tally + 1,
                    logs := st.logs ++ [msgFlagged img.filePath] } := by
  have hloop : flagLoop data [img] st =
      match flagStep data img st with
      | .ok st' => flagLoop data [] st'
      | .crash st' => .crash st' := rfl
  rw [hloop]
  cases hsub : substrB img.base64 data with
  | true =>
    have h1 : img.existsInData data = some true := by rw [existsInData_eval, hsub]
    rw [flagStep.eq_def, h1]
    rfl
  | false =>
    have h1 : img.existsInData data = some false := by rw [existsInData_eval, hsub]
    rw [flagStep.eq_def, h1, store.eq_def, h1]
    rfl

/-- `checkStep` never changes the store component. -/
theorem checkStep_state_store (mode : Bool) (data : List Char) (f : ImageFile) (st : CmdState) :
    ((checkStep mode data f st).state).store = st.store := by
  rw [checkStep.eq_def]
  cases hc : (if mode then f.chunksExistInData data else some false) with
  | none => rfl
  | some chunkExists =>
    cases he : f.existsInData data with
    | none => rfl
    | some e => cases e <;> cases chunkExists <;> rfl

/-- `parseAlt` on the configuration pattern `jpg|jpeg|png`. -/
theorem parseAlt_imageExtensions :
    parseAlt imageExtensions = some [("jpg").data, ("jpeg").data, ("png").data] := by decide

/-- `validate` (through `checkFileExtension`) is the unanchored containment
test for the three alternatives. -/
theorem validate_eval (p : List Char) :
    validate p = some (substrB (("jpg").data) p || substrB (("jpeg").data) p
      || substrB (("png").data) p) := by
  show jsRegexTest imageExtensions p = _
  rw [jsRegexTest, parseAlt_imageExtensions]
  simp [List.any_cons, List.any_nil, Bool.or_assoc]

/-- Boolean test: `s` ends with `suf`. -/
def endsWithB (suf s : List Char) : Bool := prefB suf.reverse s.reverse

/-- Spec-side comparator for C8 (from the spec's words, not from the code):
the file name carries one of the accepted extension suffixes. -/
def specSuffixAccepted (name : List Char) : Bool :=
  endsWithB (("jpg").data) name || endsWithB (("jpeg").data) name
    || endsWithB (("png").data) name

/-- The directory walk of `preload` keeps, in order, exactly the items whose
joined path passes the containment test, turning each into an `ImageFile`. -/
theorem preloadDir_eq (dir : List Char) (items : List (List Char × List Char)) :
    preloadDir dir items
      = (items.filter fun it => substrB (("jpg").data) (dirJoin dir it.1)
          || substrB (("jpeg").data) (dirJoin dir it.1)
          || substrB (("png").data) (dirJoin dir it.1)).map
          fun it => mkImageFile (dirJoin dir it.1) it.2 := by
  have haux : ∀ (its : List (List Char × List Char)) (acc : List ImageFile),
      its.foldl (fun files it =>
          match validate (dirJoin dir it.1) with
          | some true => files ++ [mkImageFile (dirJoin dir it.1) it.2]
          | _ => files) acc
        = acc ++ (its.filter fun it => substrB (("jpg").data) (dirJoin dir it.1)
              || substrB (("jpeg").data) (dirJoin dir it.1)
              || substrB (("png").data) (dirJoin dir it.1)).map
            (fun it => mkImageFile (dirJoin dir it.1) it.2) := by
    intro its
    induction its with
    | nil => intro acc; simp
    | cons it rest ih =>
      intro acc
      rw [List.foldl_cons]
      have hval := validate_eval (dirJoin dir it.1)
      cases hp : (substrB (("jpg").data) (dirJoin dir it.1)
          || substrB (("jpeg").data) (dirJoin dir it.1)
          || substrB (("png").data) (dirJoin dir it.1)) with
      | true =>
        rw [hp] at hval
        rw [hval, ih]
        simp [List.filter_cons, hp]
      | false =>
        rw [hp] at hval
        rw [hval, ih]
        simp [List.filter_cons, hp]
  have h := haux items []
  rw [List.nil_append] at h
  exact h

/-! ## The claims -/

/-- C1: for every image and every store text, `existsInData` returns true
exactly when the image's full base64 string occurs as a contiguous substring
of the store text; escaping makes every regex metacharacter of the base64
alphabet (in particular `+`) literal, so the test is plain literal substring
containment. -/
theorem claim1_existsExact_substring :
    ∀ (path b data : List Char),
      (mkImageFile path b).existsInData data = some (substrB b data) ∧
      ((mkImageFile path b).existsInData data = some true ↔ SubstrOf b data) := by
  intro path b data
  have h : (mkImageFile path b).existsInData data = some (substrB b data) :=
    existsInData_eval (mkImageFile path b) data
  refine ⟨h, ?_⟩
  rw [h]
  constructor
  · intro he
    injection he with he
    exact (substrB_iff b data).1 he
  · intro hs
    rw [(substrB_iff b data).2 hs]

/-- C2: for every image with a non-empty chunk sequence (equivalently, a
nonempty base64 string) and every store text, `chunksExistInData` returns
true exactly when at least one chunk occurs as a contiguous substring of the
store text; the loop walks the chunk sequence left to right (`List.any`
semantics), stopping at the first match, and yields false only after
exhausting all chunks. -/
theorem claim2_existsPartial_anyChunk :
    ∀ (path b data : List Char), b ≠ [] → b.all isB64 = true →
      (mkImageFile path b).chunksExistInData data
          = some ((chunkList 120 b).any fun c => substrB c data) ∧
      ((mkImageFile path b).chunksExistInData data = some true ↔
        ∃ c, c ∈ chunkList 120 b ∧ SubstrOf c data) := by
  intro path b data hb _
  have hchunks : (mkImageFile path b).chunks = some (chunkList 120 b) := by
    rw [mkImageFile_chunks, jsMatchChunks, if_neg hb]
  have heval : (mkImageFile path b).chunksExistInData data
      = chunksCheckLoop data (chunkList 120 b) := by
    rw [ImageFile.chunksExistInData.eq_def, hchunks]
  rw [heval, chunksCheckLoop_eval]
  refine ⟨rfl, ?_⟩
  constructor
  · intro h
    injection h with h
    obtain ⟨c, hc, hcs⟩ := List.any_eq_true.1 h
    exact ⟨c, hc, (substrB_iff c data).1 hcs⟩
  · rintro ⟨c, hc, hcs⟩
    have hany : (chunkList 120 b).any (fun c => substrB c data) = true :=
      List.any_eq_true.2 ⟨c, hc, (substrB_iff c data).2 hcs⟩
    rw [hany]

/-- C2 witness: the two-character image `AB` chunks to `[AB]` and is found
in the store text `xABy`. -/
theorem claim2_witness :
    ((("AB").data ≠ [] ∧ (("AB").data.all isB64 = true)) ∧
      ((mkImageFile (("a.png").data) (("AB").data)).chunksExistInData (("xABy").data)
          = some ((chunkList 120 (("AB").data)).any fun c => substrB c (("xABy").data)) ∧
        ((mkImageFile (("a.png").data) (("AB").data)).chunksExistInData (("xABy").data)
            = some true ↔
          ∃ c, c ∈ chunkList 120 (("AB").data) ∧ SubstrOf c (("xABy").data)))) :=
  ⟨⟨by decide, by decide⟩,
    claim2_existsPartial_anyChunk (("a.png").data) (("AB").data) (("xABy").data)
      (by decide) (by decide)⟩

/-- C3 counterexample: a single flag batch over two distinct files with the
same content `QQ==` (the duplicate check only consults the stale pre-batch
snapshot), starting from an empty store, appends both and leaves the store
with two identical lines — the claimed invariant is violated. -/
theorem claim3_counterexample :
    (flagLoop [] [mkImageFile (("a.png").data) (("QQ==").data),
        mkImageFile (("b.png").data) (("QQ==").data)]
      { store := [], tally := 0, logs := [] }).state.store = ("QQ==\nQQ==\n").data ∧
    (flagLoop [] [mkImageFile (("a.png").data) (("QQ==").data),
        mkImageFile (("b.png").data) (("QQ==").data)]
      { store := [], tally := 0, logs := [] }).state.tally = 2 ∧
    ¬ (lines (("QQ==\nQQ==\n").data)).Nodup :=
  ⟨by decide, by decide, by decide⟩

/-- C3 amended: a flag batch preserves the no-duplicate-lines invariant of a
well-formed store provided no two files of the batch share the same base64
content; within a batch the duplicate check consults only the pre-batch
snapshot, so identical contents in one batch would be double-appended. -/
theorem claim3_amended_nodup :
    ∀ (files : List ImageFile) (data : List Char) (st' : CmdState),
      StoreWF data →
      (lines data).Nodup →
      (∀ f ∈ files, '\n' ∉ f.base64) →
      (files.map ImageFile.base64).Nodup →
      flagLoop data files { store := data, tally := 0, logs := [] } = RunOut.ok st' →
      (lines st'.store).Nodup := by
  intro files data st' hwf hnd hnb hmap hrun
  exact (flagLoop_nodup_aux files data { store := data, tally := 0, logs := [] } st'
    hwf hnd hnb hmap (fun l hl => Or.inl (mem_lines_substrOf data l hl)) hrun).1

/-- C3 amended witness: flagging one fresh file over an empty store keeps
the no-duplicate-lines invariant. -/
theorem claim3_amended_witness :
    (lines (("QQ==\n").data)).Nodup :=
  claim3_amended_nodup [mkImageFile (("a.png").data) (("QQ==").data)] []
    { store := ("QQ==\n").data, tally := 1, logs := [msgFlagged (("a.png").data)] }
    StoreWF.nil (by decide) (by decide) (by decide) (by decide)

/-- C4: flagging the same image in two successive invocations never appends
twice: whatever the first invocation did, the second one logs "already
exists", leaves the store text unchanged and keeps the tally at zero. -/
theorem claim4_flag_idempotent :
    ∀ (path b s0 : List Char) (st1 : CmdState),
      flagLoop s0 [mkImageFile path b] { store := s0, tally := 0, logs := [] }
        = RunOut.ok st1 →
      flagLoop st1.store [mkImageFile path b] { store := st1.store, tally := 0, logs := [] }
        = RunOut.ok { store := st1.store, tally := 0, logs := [msgAlreadyExists path] } := by
  intro path b s0 st1 h
  rw [flagLoop_singleton, mkImageFile_base64, mkImageFile_filePath] at h
  have hkey : substrB b st1.store = true := by
    cases hsub : substrB b s0 with
    | true =>
      rw [hsub, if_pos rfl] at h
      injection h with h'
      subst h'
      exact hsub
    | false =>
      rw [hsub, if_neg (by simp)] at h
      injection h with h'
      subst h'
      exact (substrB_iff _ _).2 (substrOf_append_self s0 b ['\n'])
  rw [flagLoop_singleton, mkImageFile_base64, mkImageFile_filePath, if_pos hkey]
  simp

/-- C4 witness: flag `QQ==` over an empty store, then flag it again against
the grown store. -/
theorem claim4_witness :
    (flagLoop [] [mkImageFile (("a.png").data) (("QQ==").data)]
        { store := [], tally := 0, logs := [] }
      = RunOut.ok { store := ("QQ==\n").data, tally := 1,
                    logs := [msgFlagged (("a.png").data)] }) ∧
    flagLoop (("QQ==\n").data) [mkImageFile (("a.png").data) (("QQ==").data)]
        { store := ("QQ==\n").data, tally := 0, logs := [] }
      = RunOut.ok { store := ("QQ==\n").data, tally := 0,
                    logs := [msgAlreadyExists (("a.png").data)] } :=
  ⟨by decide,
    claim4_flag_idempotent (("a.png").data) (("QQ==").data) []
      { store := ("QQ==\n").data, tally := 1, logs := [msgFlagged (("a.png").data)] }
      (by decide)⟩

/-- C5: flagging an image whose base64 does not occur in the loaded store
text appends exactly that base64 plus one newline at the end (existing
content untouched), increments the tally to one, and makes the exact-match
test against the grown store text succeed. -/
theorem claim5_flag_new :
    ∀ (path b s : List Char), ¬ SubstrOf b s →
      flagLoop s [mkImageFile path b] { store := s, tally := 0, logs := [] }
        = RunOut.ok { store := s ++ b ++ ['\n'], tally := 1, logs := [msgFlagged path] } ∧
      (mkImageFile path b).existsInData (s ++ b ++ ['\n']) = some true := by
  intro path b s hns
  have hsub : substrB b s = false := by
    cases hq : substrB b s with
    | false => rfl
    | true => exact absurd ((substrB_iff b s).1 hq) hns
  constructor
  · rw [flagLoop_singleton, mkImageFile_base64, mkImageFile_filePath,
      if_neg (by rw [hsub]; simp)]
    simp
  · rw [existsInData_eval, mkImageFile_base64,
      (substrB_iff _ _).2 (substrOf_append_self s b ['\n'])]

/-- C5 witness: flag `QQ==` over the empty store. -/
theorem claim5_witness :
    ¬ SubstrOf (("QQ==").data) [] ∧
    (flagLoop [] [mkImageFile (("a.png").data) (("QQ==").data)]
        { store := [], tally := 0, logs := [] }
      = RunOut.ok { store := [] ++ ("QQ==").data ++ ['\n'], tally := 1,
                    logs := [msgFlagged (("a.png").data)] } ∧
      (mkImageFile (("a.png").data) (("QQ==").data)).existsInData
        ([] ++ ("QQ==").data ++ ['\n']) = some true) :=
  ⟨by decide,
    claim5_flag_new (("a.png").data) (("QQ==").data) [] (by decide)⟩

/-- C6 counterexample: for a zero-byte file the base64 is empty, the chunk
regex match is `null` (not an empty sequence), and `chunksExistInData`
throws (modelled `none`) instead of returning false. -/
theorem claim6_counterexample :
    (mkImageFile (("empty.png").data) []).chunks = none ∧
    (mkImageFile (("empty.png").data) []).chunksExistInData [] = none :=
  ⟨rfl, rfl⟩

/-- C6 amended: for every nonempty base64 string of length `L` and chunk
length `N > 0` (the configuration uses 120), the chunker produces exactly
`⌈L/N⌉` chunks, each of length `N` except the last, which has length
`L - N*(⌈L/N⌉ - 1)`; for the empty string the match is `null` and the chunk
test errors rather than returning false (see the counterexample). -/
theorem claim6_amended_chunks :
    ∀ (n : Nat) (path s : List Char), 0 < n → s ≠ [] → s.all isB64 = true →
      (mkImageFile path s).chunks = some (chunkList 120 s) ∧
      (chunkList n s).length = (s.length + n - 1) / n ∧
      (∀ c ∈ (chunkList n s).dropLast, c.length = n) ∧
      (∃ lc, (chunkList n s).getLast? = some lc ∧
        lc.length = s.length - n * ((s.length + n - 1) / n - 1)) := by
  intro n path s hn hs _
  have hL : 0 < s.length := List.length_pos.2 hs
  have hceil := ceil_div_form n s.length hn hL
  refine ⟨?_, ?_, ?_, ?_⟩
  · rw [mkImageFile_chunks, jsMatchChunks, if_neg hs]
  · rw [chunkList, chunksFuel_length n hn s.length s (le_refl _) hs, hceil]
  · intro c hc
    rw [chunkList] at hc
    exact chunksFuel_middle n hn s.length s (le_refl _) c hc
  · obtain ⟨lc, h1, h2⟩ := chunksFuel_last n hn s.length s (le_refl _) hs
    refine ⟨lc, h1, ?_⟩
    rw [h2, chunksFuel_length n hn s.length s (le_refl _) hs, hceil]

/-- C6 amended witness: chunking `ABCDE` with `N = 3`. -/
theorem claim6_amended_witness :
    (0 < 3 ∧ ("ABCDE").data ≠ [] ∧ (("ABCDE").data.all isB64 = true)) ∧
    ((mkImageFile (("p.png").data) (("ABCDE").data)).chunks
        = some (chunkList 120 (("ABCDE").data)) ∧
      (chunkList 3 (("ABCDE").data)).length = ((("ABCDE").data).length + 3 - 1) / 3 ∧
      (∀ c ∈ (chunkList 3 (("ABCDE").data)).dropLast, c.length = 3) ∧
      (∃ lc, (chunkList 3 (("ABCDE").data)).getLast? = some lc ∧
        lc.length = (("ABCDE").data).length
          - 3 * (((("ABCDE").data).length + 3 - 1) / 3 - 1))) :=
  ⟨⟨by decide, by decide, by decide⟩,
    claim6_amended_chunks 3 (("p.png").data) (("ABCDE").data)
      (by decide) (by decide) (by decide)⟩

/-- C7: a check run — with or without `--partial`, over any files and any
store content, whether it completes or crashes — never changes the store
component of the state. -/
theorem claim7_check_never_mutates :
    ∀ (chunkMode : Bool) (data : List Char) (files : List ImageFile) (st : CmdState),
      ((checkLoop chunkMode data files st).state).store = st.store := by
  intro mode data files
  induction files with
  | nil => intro st; rfl
  | cons f rest ih =>
    intro st
    have hloop : checkLoop mode data (f :: rest) st =
        match checkStep mode data f st with
        | .ok st' => checkLoop mode data rest st'
        | .crash st' => .crash st' := rfl
    rw [hloop]
    cases hstep : checkStep mode data f st with
    | ok st' =>
      have hst : st'.store = st.store := by
        have hs := checkStep_state_store mode data f st
        rw [hstep] at hs
        exact hs
      rw [ih st', hst]
    | crash st' =>
      have hs := checkStep_state_store mode data f st
      rw [hstep] at hs
      exact hs

/-- C8 counterexample: `photo.jpg.backup` does not end in an accepted
extension suffix, yet `validate` accepts it (the regex test is unanchored
containment) and `preload` turns it into an `ImageFile`. -/
theorem claim8_counterexample :
    validate (("photo.jpg.backup").data) = some true ∧
    specSuffixAccepted (("photo.jpg.backup").data) = false ∧
    preloadDir (("d").data) [((("photo.jpg.backup").data), (("QQ==").data))]
      = [mkImageFile (dirJoin (("d").data) (("photo.jpg.backup").data)) (("QQ==").data)] :=
  ⟨by decide, by decide, by decide⟩

/-- C8 amended: the resolution keeps exactly the files whose joined path
contains `jpg`, `jpeg` or `png` anywhere as a substring (an unanchored
containment test, not a suffix test). -/
theorem claim8_amended_contains :
    (∀ p : List Char,
      validate p = some (substrB (("jpg").data) p || substrB (("jpeg").data) p
        || substrB (("png").data) p)) ∧
    (∀ (dir : List Char) (items : List (List Char × List Char)),
      preloadDir dir items
        = (items.filter fun it => substrB (("jpg").data) (dirJoin dir it.1)
            || substrB (("jpeg").data) (dirJoin dir it.1)
            || substrB (("png").data) (dirJoin dir it.1)).map
            fun it => mkImageFile (dirJoin dir it.1) it.2) :=
  ⟨validate_eval, preloadDir_eq⟩

/-- C9 counterexample: the help path terminates through `help()`'s own
`process.exit(1)` (line 262), not through the shared `exit` routine — so not
every terminating path goes through the single exit routine. -/
theorem claim9_counterexample :
    (runPath ProgramPath.helpRequested).viaExitRoutine = false := rfl

/-- C9 amended: every terminating path of the program ends the process with
exit status 1 (no path distinguishes success from failure by status code),
but the help path bypasses the shared exit routine. -/
theorem claim9_amended_exit1 :
    ∀ p : ProgramPath, (runPath p).exitCode = 1 := by
  intro p
  cases p with
  | missingCommand => rfl
  | helpRequested => rfl
  | noAcceptedFiles => rfl
  | unknownCommand cmd => rfl
  | storeWriteFailed path => rfl
  | flagRun files storeText =>
    show (match flagLoop storeText files { store := storeText, tally := 0, logs := [] } with
      | RunOut.ok st => exitRoutine (flagDoneMsg st.tally files.length) 0
      | RunOut.crash _ => exitRoutine (("Command not found: flag").data) 2).exitCode = 1
    cases flagLoop storeText files { store := storeText, tally := 0, logs := [] } <;> rfl
  | checkRun chunkMode files storeText =>
    show (match checkLoop chunkMode storeText files
        { store := storeText, tally := 0, logs := [] } with
      | RunOut.ok st => exitRoutine (checkDoneMsg st.tally files.length) 0
      | RunOut.crash _ => exitRoutine (("Command not found: check").data) 2).exitCode = 1
    cases checkLoop chunkMode storeText files { store := storeText, tally := 0, logs := [] }
      <;> rfl

/-- C10 counterexample: for a zero-byte file, `check --partial` does not
report "found" — the chunk list is `null` and the chunk test throws, so the
run crashes into the top-level catch. -/
theorem claim10_counterexample :
    checkLoop true [] [mkImageFile (("empty.png").data) []]
      { store := [], tally := 0, logs := [] }
      = RunOut.crash { store := [], tally := 0, logs := [] } := rfl

/-- C10 amended: an image with empty base64 is reported present against
every store text: `existsInData` is always true, `flag` logs "already
exists" without appending, and `check` without `--partial` logs "found";
with `--partial` the null chunk list makes the run crash instead (see the
counterexample). -/
theorem claim10_amended_empty :
    ∀ (path data : List Char) (st : CmdState),
      (mkImageFile path []).existsInData data = some true ∧
      flagLoop data [mkImageFile path []] st
        = RunOut.ok { st with logs := st.logs ++ [msgAlreadyExists path] } ∧
      checkLoop false data [mkImageFile path []] st
        = RunOut.ok { st with tally := st.tally + 1, logs := st.logs ++ [msgFound path] } := by
  intro path data st
  have h1 : (mkImageFile path []).existsInData data = some true := by
    rw [existsInData_eval, mkImageFile_base64, substrB_nil]
  refine ⟨h1, ?_, ?_⟩
  · rw [flagLoop_singleton, mkImageFile_base64, mkImageFile_filePath,
      if_pos (substrB_nil data)]
  · have hloop : checkLoop false data [mkImageFile path []] st =
        match checkStep false data (mkImageFile path []) st with
        | .ok st' => checkLoop false data [] st'
        | .crash st' => .crash st' := rfl
    rw [hloop, checkStep.eq_def, h1]
    rfl

end ImageChecker
